import Mathlib

/-!
Verification of the JSON key-prefix migration script (src/migrate.py).

The script defines a recursive transform `walk` over parsed JSON values:
dictionaries are rebuilt entry by entry, where a key starting with
"bloqade.analog." is kept, a key starting with "bloqade." is passed through
the Python expression key.replace("bloqade.", "bloqade.analog."), and any
other key is kept; values and list elements are transformed recursively and
scalars are returned unchanged.  At module level the script parses each
*.json file, applies `walk`, and writes the result back.

This file embeds the script shallowly: JSON values become an inductive type,
Python str.replace / str.startswith / dict insertion become executable Lean
functions on character lists and association lists, and the module level
per-file loop becomes a function in the Except monad.
-/

/-- A JSON-decoded value: mappings (with string keys, in insertion order),
sequences, and the scalar leaves (number, string, boolean, null).  Numbers
are modelled as integers; their exact numeric type plays no role in the
migration logic, which never inspects scalars. -/
inductive Json where
  | obj : List (String × Json) → Json
  | arr : List Json → Json
  | num : Int → Json
  | str : String → Json
  | bool : Bool → Json
  | null : Json

/-- The scanning loop of Python str.replace for a nonempty pattern `old`,
on character lists.  With skip counter 0 it checks whether `old` occurs at
the current position: if so it emits `new` and skips the remaining
old.length - 1 characters (so the match is consumed, scanning resumes after
it); otherwise it emits the current character and moves on.  A positive
counter just consumes characters of a match already emitted. -/
def repAux (old new : List Char) : Nat → List Char → List Char
  | 0, [] => []
  | 0, c :: rest =>
      if old.isPrefixOf (c :: rest) then new ++ repAux old new (old.length - 1) rest
      else c :: repAux old new 0 rest
  | _+1, [] => []
  | k+1, _ :: rest => repAux old new k rest

/-- Python s.replace(old, new) for a nonempty pattern: every non-overlapping
occurrence of `old` in `s` is replaced by `new`, scanning left to right. -/
def pyReplace (s old new : String) : String := ⟨repAux old.data new.data 0 s.data⟩

/-- Python s.startswith(p). -/
def pyStartsWith (s p : String) : Bool := p.data.isPrefixOf s.data

/-- The key rewriting applied by the three-way branch in lines 11-16 of
src/migrate.py: a key starting with "bloqade.analog." is kept, a key
starting with "bloqade." goes through key.replace("bloqade.",
"bloqade.analog."), any other key is kept. -/
def newKey (k : String) : String :=
  if pyStartsWith k "bloqade.analog." then k
  else if pyStartsWith k "bloqade." then pyReplace k "bloqade." "bloqade.analog."
  else k

/-- Python dict assignment d[k] = v on an insertion-ordered association
list: if the key is present its value is updated in place (the entry keeps
its position), otherwise the new entry is appended at the end. -/
def pyInsert (k : String) (v : Json) : List (String × Json) → List (String × Json)
  | [] => [(k, v)]
  | (k₂, v₂) :: rest => if k₂ = k then (k₂, v) :: rest else (k₂, v₂) :: pyInsert k v rest

mutual

/-- The transform `walk` of src/migrate.py lines 7-22. -/
def walk : Json → Json
  | .obj l => .obj (walkObj l [])
  | .arr xs => .arr (walkArr xs)
  | .num n => .num n
  | .str s => .str s
  | .bool b => .bool b
  | .null => .null

/-- The dict loop of `walk` (lines 9-18): starting from the empty dict, for
each entry in order, assign new_dict[newKey key] = walk value. -/
def walkObj : List (String × Json) → List (String × Json) → List (String × Json)
  | [], acc => acc
  | (k, v) :: rest, acc => walkObj rest (pyInsert (newKey k) (walk v) acc)

/-- The list comprehension of `walk` (line 20). -/
def walkArr : List Json → List Json
  | [] => []
  | x :: xs => walk x :: walkArr xs

end

/-- The entries of a mapping value (and [] on any other value). -/
def objPairs : Json → List (String × Json)
  | .obj l => l
  | _ => []

/-- The keys of an association list, in order. -/
def keysOf (l : List (String × Json)) : List String := l.map Prod.fst

/-- Python d[k] as an optional lookup on an association list. -/
def lookupKey (k : String) : List (String × Json) → Option Json
  | [] => none
  | (k₂, v) :: rest => if k₂ = k then some v else lookupKey k rest

-- Basic equations restated for rewriting.

theorem walk_obj (l : List (String × Json)) : walk (.obj l) = .obj (walkObj l []) := rfl

theorem walk_arr (xs : List Json) : walk (.arr xs) = .arr (walkArr xs) := rfl

theorem walkArr_eq_map (xs : List Json) : walkArr xs = xs.map walk := by
  induction xs with
  | nil => rfl
  | cons x xs ih => simp [walkArr, ih]

/-- Claim C6: scalar inputs (number, string, boolean, null) are returned
unchanged by the transform; in particular any string value, including one
containing "bloqade.", is returned verbatim, since only mapping keys are
ever rewritten. -/
theorem scalars_unchanged (n : Int) (s : String) (b : Bool) :
    walk (.num n) = .num n ∧ walk (.str s) = .str s ∧
    walk (.bool b) = .bool b ∧ walk .null = .null :=
  ⟨rfl, rfl, rfl, rfl⟩

/-- Claim C7: on a sequence the transform returns a sequence of the same
length whose i-th element is the transform of the i-th input element. -/
theorem sequence_elementwise (xs : List Json) :
    walk (.arr xs) = .arr (walkArr xs) ∧ (walkArr xs).length = xs.length ∧
    ∀ (i : Nat) (h : i < xs.length), (walkArr xs)[i]? = some (walk (xs.get ⟨i, h⟩)) := by
  refine ⟨rfl, by simp [walkArr_eq_map], ?_⟩
  intro i h
  simp [walkArr_eq_map, List.getElem?_map, List.getElem?_eq_getElem h]

/-- Witness for C7 at a concrete one-element sequence. -/
theorem sequence_elementwise_witness :
    (0 : Nat) < ([Json.str "bloqade.z"] : List Json).length ∧
    (walkArr [Json.str "bloqade.z"])[0]?
      = some (walk (([Json.str "bloqade.z"] : List Json).get ⟨0, by decide⟩)) :=
  ⟨by decide, (sequence_elementwise [Json.str "bloqade.z"]).2.2 0 (by decide)⟩

-- Lemmas about the replace loop.

theorem repAux_skip (old new : List Char) :
    ∀ (u t : List Char), repAux old new u.length (u ++ t) = repAux old new 0 t := by
  intro u
  induction u with
  | nil => intro t; rfl
  | cons c u ih => intro t; simpa [repAux] using ih t

theorem isPrefixOf_append_self (u t : List Char) : (u.isPrefixOf (u ++ t)) = true :=
  ( List.isPrefixOf_iff_prefix).mpr ( List.prefix_append _ _)

theorem repAux_matched (c : Char) (os new t : List Char) :
    repAux (c :: os) new 0 ((c :: os) ++ t) = new ++ repAux (c :: os) new 0 t := by
  have hpre : (c :: os).isPrefixOf (c :: (os ++ t)) = true := by
    rw [← List.cons_append]
    exact isPrefixOf_append_self _ _
  show repAux (c :: os) new 0 (c :: (os ++ t)) = _
  simp only [repAux, hpre, if_true]
  have hlen : (c :: os).length - 1 = os.length := by simp
  rw [hlen, repAux_skip]

-- Lemmas about the key rewriting.

theorem startsNew_startsOld (k : String) (h : pyStartsWith k "bloqade.analog." = true) :
    pyStartsWith k "bloqade." = true := by
  unfold pyStartsWith at h ⊢
  rw [ List.isPrefixOf_iff_prefix] at h ⊢
  have h₀ : "bloqade.".data <+: "bloqade.analog.".data := ⟨"analog.".data, rfl⟩
  exact h₀.trans h

theorem newKey_of_new (k : String) (h : pyStartsWith k "bloqade.analog." = true) :
    newKey k = k := by
  unfold newKey
  rw [h]
  simp

theorem newKey_of_not_old (k : String) (h : pyStartsWith k "bloqade." = false) :
    newKey k = k := by
  have h₂ : pyStartsWith k "bloqade.analog." = false := by
    cases h₃ : pyStartsWith k "bloqade.analog." with
    | false => rfl
    | true => exact absurd h (by simp [startsNew_startsOld k h₃])
  unfold newKey
  rw [h, h₂]
  simp

theorem startsNew_mk_append (t : List Char) :
    pyStartsWith ⟨"bloqade.".data ++ t⟩ "bloqade.analog." = ("analog.".data).isPrefixOf t := by
  show ("bloqade.".data ++ "analog.".data).isPrefixOf ("bloqade.".data ++ t)
    = ("analog.".data).isPrefixOf t
  cases h : ("analog.".data).isPrefixOf t with
  | true =>
    rw [ List.isPrefixOf_iff_prefix] at h ⊢
    rw [ List.prefix_append_right_inj]
    exact h
  | false =>
    cases h₂ : ("bloqade.".data ++ "analog.".data).isPrefixOf ("bloqade.".data ++ t) with
    | false => rfl
    | true =>
      exfalso
      rw [ List.isPrefixOf_iff_prefix, List.prefix_append_right_inj,
        ← List.isPrefixOf_iff_prefix] at h₂
      rw [h₂] at h
      simp at h

theorem newKey_of_old (t : List Char)
    (h : ("analog.".data).isPrefixOf t = false) :
    newKey ⟨"bloqade.".data ++ t⟩
      = ⟨"bloqade.analog.".data ++ repAux "bloqade.".data "bloqade.analog.".data 0 t⟩ := by
  have hnew : pyStartsWith ⟨"bloqade.".data ++ t⟩ "bloqade.analog." = false := by
    rw [startsNew_mk_append]
    exact h
  have hold : pyStartsWith ⟨"bloqade.".data ++ t⟩ "bloqade." = true :=
    isPrefixOf_append_self _ t
  unfold newKey
  rw [hnew, hold]
  simp only [Bool.false_eq_true, if_false, if_true]
  unfold pyReplace
  show String.mk (repAux ('b' :: "loqade.".data) "bloqade.analog.".data 0
    (('b' :: "loqade.".data) ++ t)) = _
  rw [repAux_matched]

theorem newKey_eq_or_startsNew (k : String) :
    newKey k = k ∨ pyStartsWith (newKey k) "bloqade.analog." = true := by
  cases h₁ : pyStartsWith k "bloqade.analog." with
  | true => exact Or.inl (newKey_of_new k h₁)
  | false =>
    cases h₂ : pyStartsWith k "bloqade." with
    | false => exact Or.inl (newKey_of_not_old k h₂)
    | true =>
      right
      have h₃ : "bloqade.".data <+: k.data := by
        unfold pyStartsWith at h₂
        rw [ List.isPrefixOf_iff_prefix] at h₂
        exact h₂
      obtain ⟨t, ht⟩ := h₃
      have hk : k = ⟨"bloqade.".data ++ t⟩ := String.ext ht.symm
      rw [hk] at h₁ ⊢
      rw [startsNew_mk_append] at h₁
      rw [newKey_of_old t h₁]
      exact isPrefixOf_append_self _ _

theorem newKey_idem (k : String) : newKey (newKey k) = newKey k := by
  rcases newKey_eq_or_startsNew k with h | h
  · rw [h, h]
  · exact newKey_of_new _ h

theorem newKey_preimage_eq (k₂ k : String) (hk : newKey k₂ = k)
    (h : pyStartsWith k "bloqade." = false) : k₂ = k := by
  rcases newKey_eq_or_startsNew k₂ with h₂ | h₂
  · rw [← hk, h₂]
  · exfalso
    rw [hk] at h₂
    rw [startsNew_startsOld k h₂] at h
    simp at h

-- Lemmas about Python dict insertion.

theorem keysOf_length (l : List (String × Json)) : (keysOf l).length = l.length :=
  List.length_map _ _

theorem pyInsert_not_mem (k : String) (v : Json) :
    ∀ acc : List (String × Json), k ∉ keysOf acc → pyInsert k v acc = acc ++ [(k, v)] := by
  intro acc
  induction acc with
  | nil => intro _; rfl
  | cons q rest ih =>
    obtain ⟨k₂, v₂⟩ := q
    intro h
    simp only [keysOf, List.map_cons, List.mem_cons, not_or] at h
    obtain ⟨h₁, h₂⟩ := h
    simp only [pyInsert]
    rw [if_neg (fun hc => h₁ hc.symm), ih h₂]
    rfl

theorem mem_pyInsert (k : String) (v : Json) (p : String × Json) :
    ∀ acc, p ∈ pyInsert k v acc → p = (k, v) ∨ p ∈ acc := by
  intro acc
  induction acc with
  | nil => intro h; simp [pyInsert] at h; exact Or.inl h
  | cons q rest ih =>
    obtain ⟨k₂, v₂⟩ := q
    intro h
    simp only [pyInsert] at h
    by_cases hc : k₂ = k
    · rw [if_pos hc] at h
      rcases List.mem_cons.mp h with h | h
      · subst hc; exact Or.inl h
      · exact Or.inr (List.mem_cons_of_mem _ h)
    · rw [if_neg hc] at h
      rcases List.mem_cons.mp h with h | h
      · exact Or.inr (List.mem_cons.mpr (Or.inl h))
      · rcases ih h with h | h
        · exact Or.inl h
        · exact Or.inr (List.mem_cons_of_mem _ h)

theorem mem_pyInsert_self (k : String) (v : Json) :
    ∀ acc, (k, v) ∈ pyInsert k v acc := by
  intro acc
  induction acc with
  | nil => simp [pyInsert]
  | cons q rest ih =>
    obtain ⟨k₂, v₂⟩ := q
    simp only [pyInsert]
    by_cases hc : k₂ = k
    · rw [if_pos hc]; subst hc; exact List.mem_cons_self _ _
    · rw [if_neg hc]; exact List.mem_cons_of_mem _ ih

theorem mem_pyInsert_of_ne (k : String) (v : Json) (p : String × Json) (hne : p.1 ≠ k) :
    ∀ acc, p ∈ acc → p ∈ pyInsert k v acc := by
  intro acc
  induction acc with
  | nil => intro h; cases h
  | cons q rest ih =>
    obtain ⟨k₂, v₂⟩ := q
    intro h
    simp only [pyInsert]
    by_cases hc : k₂ = k
    · rw [if_pos hc]
      rcases List.mem_cons.mp h with h | h
      · exact absurd (by rw [h]; exact hc) hne
      · exact List.mem_cons_of_mem _ h
    · rw [if_neg hc]
      rcases List.mem_cons.mp h with h | h
      · exact List.mem_cons.mpr (Or.inl h)
      · exact List.mem_cons_of_mem _ (ih h)

theorem keysOf_pyInsert_mem (k : String) (v : Json) :
    ∀ acc, k ∈ keysOf acc → keysOf (pyInsert k v acc) = keysOf acc := by
  intro acc
  induction acc with
  | nil => intro h; cases h
  | cons q rest ih =>
    obtain ⟨k₂, v₂⟩ := q
    intro h
    simp only [pyInsert]
    by_cases hc : k₂ = k
    · rw [if_pos hc]; rfl
    · rw [if_neg hc]
      simp only [keysOf, List.map_cons] at h ⊢
      rcases List.mem_cons.mp h with h | h
      · exact absurd h.symm hc
      · rw [show List.map Prod.fst (pyInsert k v rest) = keysOf (pyInsert k v rest) from rfl,
          ih h]
        rfl

theorem keysOf_pyInsert_not_mem (k : String) (v : Json) (acc : List (String × Json))
    (h : k ∉ keysOf acc) : keysOf (pyInsert k v acc) = keysOf acc ++ [k] := by
  rw [pyInsert_not_mem k v acc h]
  simp [keysOf]

theorem mem_keysOf_pyInsert_self (k : String) (v : Json) (acc : List (String × Json)) :
    k ∈ keysOf (pyInsert k v acc) := by
  by_cases h : k ∈ keysOf acc
  · rw [keysOf_pyInsert_mem k v acc h]; exact h
  · rw [keysOf_pyInsert_not_mem k v acc h]; simp

theorem mem_keysOf_pyInsert_of_mem (k k₃ : String) (v : Json) (acc : List (String × Json))
    (h : k₃ ∈ keysOf acc) : k₃ ∈ keysOf (pyInsert k v acc) := by
  by_cases h₂ : k ∈ keysOf acc
  · rw [keysOf_pyInsert_mem k v acc h₂]; exact h
  · rw [keysOf_pyInsert_not_mem k v acc h₂]; exact List.mem_append_left _ h

theorem length_pyInsert_mem (k : String) (v : Json) (acc : List (String × Json))
    (h : k ∈ keysOf acc) : (pyInsert k v acc).length = acc.length := by
  rw [← keysOf_length, ← keysOf_length acc, keysOf_pyInsert_mem k v acc h]

theorem length_pyInsert_le (k : String) (v : Json) (acc : List (String × Json)) :
    (pyInsert k v acc).length ≤ acc.length + 1 := by
  by_cases h : k ∈ keysOf acc
  · rw [length_pyInsert_mem k v acc h]; omega
  · rw [← keysOf_length, keysOf_pyInsert_not_mem k v acc h]
    simp [keysOf_length]

theorem nodup_keysOf_pyInsert (k : String) (v : Json) (acc : List (String × Json))
    (h : (keysOf acc).Nodup) : (keysOf (pyInsert k v acc)).Nodup := by
  by_cases h₂ : k ∈ keysOf acc
  · rw [keysOf_pyInsert_mem k v acc h₂]; exact h
  · rw [keysOf_pyInsert_not_mem k v acc h₂]
    simp [List.nodup_append, h, h₂]

theorem lookupKey_pyInsert_self (k : String) (v : Json) :
    ∀ acc, lookupKey k (pyInsert k v acc) = some v := by
  intro acc
  induction acc with
  | nil => simp [pyInsert, lookupKey]
  | cons q rest ih =>
    obtain ⟨k₂, v₂⟩ := q
    simp only [pyInsert]
    by_cases hc : k₂ = k
    · rw [if_pos hc]
      simp only [lookupKey]
      rw [if_pos hc]
    · rw [if_neg hc]
      simp only [lookupKey]
      rw [if_neg hc]
      exact ih

theorem lookupKey_pyInsert_ne (k k₂ : String) (v : Json) (hne : k₂ ≠ k) :
    ∀ acc, lookupKey k (pyInsert k₂ v acc) = lookupKey k acc := by
  intro acc
  induction acc with
  | nil => simp [pyInsert, lookupKey, hne]
  | cons q rest ih =>
    obtain ⟨k₃, v₃⟩ := q
    simp only [pyInsert]
    by_cases hc : k₃ = k₂
    · rw [if_pos hc]
      simp only [lookupKey]
      rw [if_neg (hc ▸ hne), if_neg (hc ▸ hne)]
    · rw [if_neg hc]
      simp only [lookupKey]
      by_cases hck : k₃ = k
      · rw [if_pos hck, if_pos hck]
      · rw [if_neg hck, if_neg hck]
        exact ih

-- Lemmas about the dict loop of the transform.

theorem walkObj_append (l₁ l₂ : List (String × Json)) :
    ∀ acc, walkObj (l₁ ++ l₂) acc = walkObj l₂ (walkObj l₁ acc) := by
  induction l₁ with
  | nil => intro acc; rfl
  | cons q rest ih =>
    obtain ⟨k, v⟩ := q
    intro acc
    simp only [List.cons_append, walkObj]
    exact ih _

theorem mem_walkObj (p : String × Json) :
    ∀ (l : List (String × Json)) acc, p ∈ walkObj l acc →
      p ∈ acc ∨ ∃ kv ∈ l, p = (newKey kv.1, walk kv.2) := by
  intro l
  induction l with
  | nil => intro acc h; exact Or.inl h
  | cons q rest ih =>
    obtain ⟨k, v⟩ := q
    intro acc h
    simp only [walkObj] at h
    rcases ih _ h with h₂ | h₂
    · rcases mem_pyInsert _ _ _ _ h₂ with h₃ | h₃
      · exact Or.inr ⟨(k, v), List.mem_cons_self _ _, h₃⟩
      · exact Or.inl h₃
    · obtain ⟨kv, hkv, hp⟩ := h₂
      exact Or.inr ⟨kv, List.mem_cons_of_mem _ hkv, hp⟩

theorem mem_keysOf_walkObj (k : String) :
    ∀ (l : List (String × Json)) acc, k ∈ keysOf acc → k ∈ keysOf (walkObj l acc) := by
  intro l
  induction l with
  | nil => intro acc h; exact h
  | cons q rest ih =>
    obtain ⟨k₂, v₂⟩ := q
    intro acc h
    simp only [walkObj]
    exact ih _ (mem_keysOf_pyInsert_of_mem _ _ _ _ h)

theorem nodup_keysOf_walkObj :
    ∀ (l : List (String × Json)) acc, (keysOf acc).Nodup → (keysOf (walkObj l acc)).Nodup := by
  intro l
  induction l with
  | nil => intro acc h; exact h
  | cons q rest ih =>
    obtain ⟨k, v⟩ := q
    intro acc h
    simp only [walkObj]
    exact ih _ (nodup_keysOf_pyInsert _ _ _ h)

theorem length_walkObj_le :
    ∀ (l : List (String × Json)) acc, (walkObj l acc).length ≤ acc.length + l.length := by
  intro l
  induction l with
  | nil => intro acc; simp [walkObj]
  | cons q rest ih =>
    obtain ⟨k, v⟩ := q
    intro acc
    simp only [walkObj]
    calc (walkObj rest (pyInsert (newKey k) (walk v) acc)).length
        ≤ (pyInsert (newKey k) (walk v) acc).length + rest.length := ih _
      _ ≤ (acc.length + 1) + rest.length := by
          have := length_pyInsert_le (newKey k) (walk v) acc
          omega
      _ = acc.length + ((k, v) :: rest).length := by simp; omega

theorem walkObj_no_collision :
    ∀ (l : List (String × Json)) acc,
      (l.map fun kv => newKey kv.1).Nodup →
      (∀ kv ∈ l, newKey kv.1 ∉ keysOf acc) →
      walkObj l acc = acc ++ l.map fun kv => (newKey kv.1, walk kv.2) := by
  intro l
  induction l with
  | nil => intro acc _ _; simp [walkObj]
  | cons q rest ih =>
    obtain ⟨k, v⟩ := q
    intro acc hnd hdis
    simp only [List.map_cons, List.nodup_cons] at hnd
    obtain ⟨hk, hnd⟩ := hnd
    simp only [walkObj]
    rw [pyInsert_not_mem _ _ _ (hdis (k, v) (List.mem_cons_self _ _))]
    rw [ih _ hnd ?_]
    · simp
    · intro kv hkv
      rw [show keysOf (acc ++ [(newKey k, walk v)]) = keysOf acc ++ [newKey k] by simp [keysOf]]
      simp only [List.mem_append, List.mem_singleton, not_or]
      refine ⟨hdis kv (List.mem_cons_of_mem _ hkv), ?_⟩
      intro heq
      exact hk (by rw [← heq]; exact List.mem_map_of_mem _ hkv)

theorem mem_walkObj_of_mem (p : String × Json) :
    ∀ (l : List (String × Json)) acc, p ∈ acc → (∀ kv ∈ l, newKey kv.1 ≠ p.1) →
      p ∈ walkObj l acc := by
  intro l
  induction l with
  | nil => intro acc h _; exact h
  | cons q rest ih =>
    obtain ⟨k, v⟩ := q
    intro acc h hne
    simp only [walkObj]
    refine ih _ ?_ (fun kv hkv => hne kv (List.mem_cons_of_mem _ hkv))
    exact mem_pyInsert_of_ne _ _ _
      (fun hc => hne (k, v) (List.mem_cons_self _ _) hc.symm) _ h

theorem lookupKey_walkObj_absent (k : String) :
    ∀ (l : List (String × Json)) acc, (∀ kv ∈ l, newKey kv.1 ≠ k) →
      lookupKey k (walkObj l acc) = lookupKey k acc := by
  intro l
  induction l with
  | nil => intro acc _; rfl
  | cons q rest ih =>
    obtain ⟨k₂, v₂⟩ := q
    intro acc hne
    simp only [walkObj]
    rw [ih _ (fun kv hkv => hne kv (List.mem_cons_of_mem _ hkv))]
    exact lookupKey_pyInsert_ne _ _ _ (hne (k₂, v₂) (List.mem_cons_self _ _)) _

/-- Counterexample to claim C1: on the key "bloqade.x.bloqade.y" the
transform rewrites the later occurrence of "bloqade." as well, because the
code uses key.replace, which substitutes every occurrence, not only the one
at the start of the key.  The claimed output key, with the later occurrence
unchanged, differs from the actual output key. -/
theorem replace_not_only_at_start :
    walk (.obj [("bloqade.x.bloqade.y", Json.null)])
      = .obj [("bloqade.analog.x.bloqade.analog.y", Json.null)]
    ∧ "bloqade.analog.x.bloqade.analog.y" ≠ "bloqade.analog.x.bloqade.y" :=
  ⟨rfl, by decide⟩

/-- Claim C1 as amended: for a key formed of the old prefix "bloqade."
followed by a tail that does not start with "analog.", the transform
replaces the leading old prefix with the new prefix and additionally applies
the same replacement to every occurrence of "bloqade." in the tail (the
replace loop repAux), rather than leaving later occurrences unchanged. -/
theorem replace_rewrites_all_occurrences (t : List Char) (v : Json)
    (h : ("analog.".data).isPrefixOf t = false) :
    walk (.obj [(⟨"bloqade.".data ++ t⟩, v)])
      = .obj [(⟨"bloqade.analog.".data ++ repAux "bloqade.".data "bloqade.analog.".data 0 t⟩,
               walk v)] := by
  rw [walk_obj]
  show Json.obj (pyInsert (newKey ⟨"bloqade.".data ++ t⟩) (walk v) []) = _
  rw [newKey_of_old t h]
  rfl

/-- Witness for the amended C1 at the tail "x.bloqade.y". -/
theorem replace_rewrites_all_occurrences_witness :
    ("analog.".data).isPrefixOf "x.bloqade.y".data = false ∧
    walk (.obj [(⟨"bloqade.".data ++ "x.bloqade.y".data⟩, Json.null)])
      = .obj [(⟨"bloqade.analog.".data
          ++ repAux "bloqade.".data "bloqade.analog.".data 0 "x.bloqade.y".data⟩,
        walk Json.null)] :=
  ⟨by decide, replace_rewrites_all_occurrences "x.bloqade.y".data Json.null (by decide)⟩

/-- Counterexample to claim C4: the key "bloqade.bloqade.analog.x" does not
start with the new prefix, so it is rewritten, and because key.replace
substitutes every occurrence of "bloqade.", the resulting key contains the
doubled segment "bloqade.analog.analog.". -/
theorem rewritten_key_with_doubled_segment :
    walk (.obj [("bloqade.bloqade.analog.x", Json.null)])
      = .obj [("bloqade.analog.bloqade.analog.analog.x", Json.null)]
    ∧ pyStartsWith "bloqade.bloqade.analog.x" "bloqade.analog." = false
    ∧ "bloqade.analog.analog.".data <:+: "bloqade.analog.bloqade.analog.analog.x".data :=
  ⟨rfl, by decide, by decide⟩

/-- Claim C4 as amended: a mapping key that already starts with the new
prefix "bloqade.analog." is kept character for character unchanged (its
value still recursively transformed), so re-running the migration never
double-prefixes such a key; however a key that starts with the old prefix
and contains a later occurrence of "bloqade." can be rewritten to contain a
doubled segment. -/
theorem newPrefix_key_preserved (k : String) (v : Json)
    (h : pyStartsWith k "bloqade.analog." = true) :
    newKey k = k ∧ walk (.obj [(k, v)]) = .obj [(k, walk v)] := by
  refine ⟨newKey_of_new k h, ?_⟩
  rw [walk_obj]
  show Json.obj (pyInsert (newKey k) (walk v) []) = _
  rw [newKey_of_new k h]
  rfl

/-- Witness for the amended C4 at the mapping from the spec examples. -/
theorem newPrefix_key_preserved_witness :
    pyStartsWith "bloqade.analog.y" "bloqade.analog." = true ∧
    (newKey "bloqade.analog.y" = "bloqade.analog.y" ∧
      walk (.obj [("bloqade.analog.y", Json.num 4)])
        = .obj [("bloqade.analog.y", walk (Json.num 4))]) :=
  ⟨by decide, newPrefix_key_preserved "bloqade.analog.y" (Json.num 4) (by decide)⟩

/-- Claim C5: in a mapping with pairwise distinct keys, an entry whose key
starts with neither the old prefix "bloqade." nor the new prefix
"bloqade.analog." keeps its key unchanged while its value is recursively
transformed; the entry, with transformed value, is present in the output.
No other key can collide with it, since every rewritten key starts with
"bloqade.analog.". -/
theorem unmatched_key_preserved (l : List (String × Json)) (k : String) (v : Json)
    (hnd : (keysOf l).Nodup) (hmem : (k, v) ∈ l)
    (hnew : pyStartsWith k "bloqade.analog." = false)
    (hold : pyStartsWith k "bloqade." = false) :
    newKey k = k ∧ (k, walk v) ∈ objPairs (walk (.obj l)) := by
  refine ⟨newKey_of_not_old k hold, ?_⟩
  obtain ⟨l₁, l₂, rfl⟩ := List.append_of_mem hmem
  rw [walk_obj]
  show (k, walk v) ∈ walkObj (l₁ ++ (k, v) :: l₂) []
  rw [walkObj_append]
  simp only [walkObj]
  apply mem_walkObj_of_mem
  · rw [newKey_of_not_old k hold]
    exact mem_pyInsert_self k (walk v) _
  · intro kv hkv heq
    have hkk : kv.1 = k := newKey_preimage_eq kv.1 k heq hold
    have hnd₂ : (k :: keysOf l₂).Nodup := by
      simp only [keysOf, List.map_append, List.map_cons] at hnd
      exact hnd.of_append_right
    exact (List.nodup_cons.mp hnd₂).1 (hkk ▸ List.mem_map_of_mem Prod.fst hkv)

/-- Witness for C5 at the mapping from the spec examples. -/
theorem unmatched_key_preserved_witness :
    pyStartsWith "other.key" "bloqade." = false ∧
    (newKey "other.key" = "other.key" ∧
      ("other.key", walk (Json.num 2)) ∈ objPairs (walk (.obj [("other.key", Json.num 2)]))) :=
  ⟨by decide, unmatched_key_preserved [("other.key", Json.num 2)] "other.key" (Json.num 2)
    (by decide) (List.mem_cons_self _ _) (by decide) (by decide)⟩

-- Size lemmas used for induction over the nested Json type.

theorem one_le_sizeOf (v : Json) : 1 ≤ sizeOf v := by cases v <;> simp

theorem sizeOf_snd_lt_obj (l : List (String × Json)) (kv : String × Json) (h : kv ∈ l) :
    sizeOf kv.2 < sizeOf (Json.obj l) := by
  have h₁ : sizeOf kv < sizeOf l := List.sizeOf_lt_of_mem h
  obtain ⟨k, v⟩ := kv
  simp at h₁ ⊢
  omega

theorem sizeOf_mem_arr (xs : List Json) (x : Json) (h : x ∈ xs) :
    sizeOf x < sizeOf (Json.arr xs) := by
  have h₁ : sizeOf x < sizeOf xs := List.sizeOf_lt_of_mem h
  simp
  omega

theorem walk_idem_aux : ∀ (n : Nat) (v : Json), sizeOf v ≤ n → walk (walk v) = walk v := by
  intro n
  induction n with
  | zero =>
    intro v h
    exact absurd h (by have := one_le_sizeOf v; omega)
  | succ n ih =>
    intro v h
    cases v with
    | obj l =>
      rw [walk_obj, walk_obj]
      congr 1
      have hstable : ∀ p ∈ walkObj l [], newKey p.1 = p.1 ∧ walk p.2 = p.2 := by
        intro p hp
        rcases mem_walkObj p l [] hp with h₂ | h₂
        · cases h₂
        · obtain ⟨kv, hkv, rfl⟩ := h₂
          refine ⟨newKey_idem kv.1, ?_⟩
          apply ih
          have h₃ := sizeOf_snd_lt_obj l kv hkv
          have h₄ : sizeOf (Json.obj l) ≤ n + 1 := h
          omega
      have hkeys : (walkObj l []).map (fun kv => newKey kv.1) = keysOf (walkObj l []) :=
        List.map_congr_left (fun p hp => (hstable p hp).1)
      have hnd : ((walkObj l []).map fun kv => newKey kv.1).Nodup := by
        rw [hkeys]
        exact nodup_keysOf_walkObj l [] (by simp [keysOf])
      rw [walkObj_no_collision (walkObj l []) [] hnd (fun kv _ => List.not_mem_nil _),
        List.nil_append]
      have hid : ∀ p ∈ walkObj l [], (fun kv => (newKey kv.1, walk kv.2)) p = id p := by
        intro p hp
        obtain ⟨h₁, h₂⟩ := hstable p hp
        simp [h₁, h₂]
      rw [List.map_congr_left hid, List.map_id]
    | arr xs =>
      rw [walk_arr, walk_arr]
      congr 1
      rw [walkArr_eq_map, walkArr_eq_map, List.map_map]
      apply List.map_congr_left
      intro x hx
      show walk (walk x) = walk x
      apply ih
      have h₃ := sizeOf_mem_arr xs x hx
      have h₄ : sizeOf (Json.arr xs) ≤ n + 1 := h
      omega
    | num m => rfl
    | str s => rfl
    | bool b => rfl
    | null => rfl

/-- Claim C2: the migration transform is idempotent: applying it twice to
any JSON-decoded value yields the same result as applying it once.  Every
key of an output mapping either was kept unchanged (and is kept again) or
starts with the new prefix "bloqade.analog." (and is therefore kept by the
second pass), and output mappings always have pairwise distinct keys, so
the second pass rebuilds them unchanged. -/
theorem migration_idempotent (v : Json) : walk (walk v) = walk v :=
  walk_idem_aux (sizeOf v) v (le_refl _)

mutual

/-- The shape of a JSON value: the same tree with every mapping key erased
(replaced by the empty string).  Two values have equal shape exactly when
they agree on sequence lengths and order, on scalar values at corresponding
positions, and on entry counts and entry shapes of mappings at
corresponding positions, ignoring key names: the structural diff of the
spec, which ignores key-name substitution. -/
def shape : Json → Json
  | .obj l => .obj (shapeObj l)
  | .arr xs => .arr (shapeArr xs)
  | .num n => .num n
  | .str s => .str s
  | .bool b => .bool b
  | .null => .null

/-- Key-erased entries of a mapping. -/
def shapeObj : List (String × Json) → List (String × Json)
  | [] => []
  | (_, v) :: rest => ("", shape v) :: shapeObj rest

/-- Shapes of the elements of a sequence. -/
def shapeArr : List Json → List Json
  | [] => []
  | x :: xs => shape x :: shapeArr xs

end

mutual

/-- Decides that nowhere in the value do two distinct keys of the same
mapping get rewritten to the same key: within every mapping the list of
rewritten keys is pairwise distinct. -/
def noCollide : Json → Bool
  | .obj l => decide ((l.map fun kv => newKey kv.1).Nodup) && noCollideObj l
  | .arr xs => noCollideArr xs
  | .num _ => true
  | .str _ => true
  | .bool _ => true
  | .null => true

/-- noCollide on every value of a mapping. -/
def noCollideObj : List (String × Json) → Bool
  | [] => true
  | (_, v) :: rest => noCollide v && noCollideObj rest

/-- noCollide on every element of a sequence. -/
def noCollideArr : List Json → Bool
  | [] => true
  | x :: xs => noCollide x && noCollideArr xs

end

theorem noCollideObj_mem :
    ∀ l, noCollideObj l = true → ∀ kv ∈ l, noCollide kv.2 = true := by
  intro l
  induction l with
  | nil => intro _ kv hkv; cases hkv
  | cons q rest ih =>
    obtain ⟨k, v⟩ := q
    intro h kv hkv
    simp only [noCollideObj, Bool.and_eq_true] at h
    rcases List.mem_cons.mp hkv with h₂ | h₂
    · rw [h₂]; exact h.1
    · exact ih h.2 kv h₂

theorem noCollideArr_mem :
    ∀ xs, noCollideArr xs = true → ∀ x ∈ xs, noCollide x = true := by
  intro xs
  induction xs with
  | nil => intro _ x hx; cases hx
  | cons y rest ih =>
    intro h x hx
    simp only [noCollideArr, Bool.and_eq_true] at h
    rcases List.mem_cons.mp hx with h₂ | h₂
    · rw [h₂]; exact h.1
    · exact ih h.2 x h₂

theorem shapeObj_map :
    ∀ l, (∀ kv ∈ l, shape (walk kv.2) = shape kv.2) →
      shapeObj (l.map fun kv => (newKey kv.1, walk kv.2)) = shapeObj l := by
  intro l
  induction l with
  | nil => intro _; rfl
  | cons q rest ih =>
    obtain ⟨k, v⟩ := q
    intro hall
    simp only [List.map_cons, shapeObj]
    rw [hall (k, v) (List.mem_cons_self _ _)]
    rw [ih (fun kv hkv => hall kv (List.mem_cons_of_mem _ hkv))]

theorem shapeArr_walkArr :
    ∀ xs, (∀ x ∈ xs, shape (walk x) = shape x) → shapeArr (walkArr xs) = shapeArr xs := by
  intro xs
  induction xs with
  | nil => intro _; rfl
  | cons y rest ih =>
    intro hall
    simp only [walkArr, shapeArr]
    rw [hall y (List.mem_cons_self _ _)]
    rw [ih (fun x hx => hall x (List.mem_cons_of_mem _ hx))]

theorem shape_walk_aux :
    ∀ (n : Nat) (v : Json), sizeOf v ≤ n → noCollide v = true → shape (walk v) = shape v := by
  intro n
  induction n with
  | zero =>
    intro v h
    exact absurd h (by have := one_le_sizeOf v; omega)
  | succ n ih =>
    intro v h hnc
    cases v with
    | obj l =>
      simp only [noCollide, Bool.and_eq_true] at hnc
      have hnd : (l.map fun kv => newKey kv.1).Nodup := of_decide_eq_true hnc.1
      rw [walk_obj]
      show Json.obj (shapeObj (walkObj l [])) = Json.obj (shapeObj l)
      congr 1
      rw [walkObj_no_collision l [] hnd (fun kv _ => List.not_mem_nil _), List.nil_append]
      apply shapeObj_map
      intro kv hkv
      apply ih
      · have h₃ := sizeOf_snd_lt_obj l kv hkv
        have h₄ : sizeOf (Json.obj l) ≤ n + 1 := h
        omega
      · exact noCollideObj_mem l hnc.2 kv hkv
    | arr xs =>
      simp only [noCollide] at hnc
      rw [walk_arr]
      show Json.arr (shapeArr (walkArr xs)) = Json.arr (shapeArr xs)
      congr 1
      apply shapeArr_walkArr
      intro x hx
      apply ih
      · have h₃ := sizeOf_mem_arr xs x hx
        have h₄ : sizeOf (Json.arr xs) ≤ n + 1 := h
        omega
      · exact noCollideArr_mem xs hnc x hx
    | num m => rfl
    | str s => rfl
    | bool b => rfl
    | null => rfl

/-- Claim C3 as amended: on any input in which no two distinct keys of the
same mapping are rewritten to the same key, the output of the transform has
exactly the same shape as the input: same sequence lengths and order, same
scalar values at corresponding positions, and mappings with the same number
of entries at corresponding positions, differing only in the renamed keys.
When two keys do collide, the output mapping has fewer entries (the
counterexample theorem). -/
theorem structure_preserved_no_collision (v : Json) (h : noCollide v = true) :
    shape (walk v) = shape v :=
  shape_walk_aux (sizeOf v) v (le_refl _) h

/-- Counterexample to claim C3: when a mapping contains both "bloqade.foo"
and "bloqade.analog.foo", both keys are rewritten to "bloqade.analog.foo",
the second assignment overwrites the first, and the output mapping has one
entry where the input had two, so the shapes differ in entry count. -/
theorem collision_shrinks_mapping :
    walk (.obj [("bloqade.foo", Json.null), ("bloqade.analog.foo", Json.num 2)])
      = .obj [("bloqade.analog.foo", Json.num 2)]
    ∧ (objPairs (.obj [("bloqade.foo", Json.null), ("bloqade.analog.foo", Json.num 2)])).length
        = 2
    ∧ (objPairs (walk (.obj [("bloqade.foo", Json.null),
        ("bloqade.analog.foo", Json.num 2)]))).length = 1 :=
  ⟨rfl, rfl, rfl⟩

/-- Witness for the amended C3 at the nested example of the spec. -/
theorem structure_preserved_no_collision_witness :
    noCollide (.obj [("bloqade.a", .obj [("bloqade.b",
        .arr [.obj [("bloqade.c", Json.num 3)]])])]) = true ∧
    shape (walk (.obj [("bloqade.a", .obj [("bloqade.b",
        .arr [.obj [("bloqade.c", Json.num 3)]])])]))
      = shape (.obj [("bloqade.a", .obj [("bloqade.b",
        .arr [.obj [("bloqade.c", Json.num 3)]])])]) :=
  ⟨by decide, structure_preserved_no_collision _ (by decide)⟩

mutual

/-- Fuel-bounded version of the transform: with fuel n + 1 a value is
processed exactly as in `walk`, recursive calls on mapping values and on
sequence elements receiving fuel n; with fuel 0 the computation gives up
and returns none.  Used to state that the recursion of the transform
terminates, with recursion depth bounded by the size of the value, on every
JSON value shape. -/
def walkF : Nat → Json → Option Json
  | 0, _ => none
  | n+1, .obj l => (walkObjF n l []).map Json.obj
  | n+1, .arr xs => (walkArrF n xs).map Json.arr
  | _+1, .num m => some (.num m)
  | _+1, .str s => some (.str s)
  | _+1, .bool b => some (.bool b)
  | _+1, .null => some .null
termination_by n v => (n, 0)

/-- Fuel-bounded dict loop. -/
def walkObjF : Nat → List (String × Json) → List (String × Json) →
    Option (List (String × Json))
  | _, [], acc => some acc
  | n, (k, v) :: rest, acc =>
    match walkF n v with
    | none => none
    | some w => walkObjF n rest (pyInsert (newKey k) w acc)
termination_by n l _ => (n, l.length + 1)

/-- Fuel-bounded list comprehension. -/
def walkArrF : Nat → List Json → Option (List Json)
  | _, [] => some []
  | n, x :: xs =>
    match walkF n x, walkArrF n xs with
    | some y, some ys => some (y :: ys)
    | _, _ => none
termination_by n xs => (n, xs.length + 1)

end

theorem walkObjF_eq (n : Nat) :
    ∀ (l : List (String × Json)) acc, (∀ kv ∈ l, walkF n kv.2 = some (walk kv.2)) →
      walkObjF n l acc = some (walkObj l acc) := by
  intro l
  induction l with
  | nil => intro acc _; simp [walkObjF, walkObj]
  | cons q rest ih =>
    obtain ⟨k, v⟩ := q
    intro acc hall
    have h₁ : walkF n v = some (walk v) := hall (k, v) (List.mem_cons_self _ _)
    have h₂ := ih (pyInsert (newKey k) (walk v) acc)
      (fun kv hkv => hall kv (List.mem_cons_of_mem _ hkv))
    simp only [walkObjF, walkObj, h₁, h₂]

theorem walkArrF_eq (n : Nat) :
    ∀ xs, (∀ x ∈ xs, walkF n x = some (walk x)) → walkArrF n xs = some (walkArr xs) := by
  intro xs
  induction xs with
  | nil => intro _; simp [walkArrF, walkArr]
  | cons y rest ih =>
    intro hall
    have h₁ : walkF n y = some (walk y) := hall y (List.mem_cons_self _ _)
    have h₂ := ih (fun x hx => hall x (List.mem_cons_of_mem _ hx))
    simp only [walkArrF, walkArr, h₁, h₂]

theorem walkF_total : ∀ (n : Nat) (v : Json), sizeOf v ≤ n → walkF n v = some (walk v) := by
  intro n
  induction n with
  | zero =>
    intro v h
    exact absurd h (by have := one_le_sizeOf v; omega)
  | succ n ih =>
    intro v h
    cases v with
    | obj l =>
      have hmem : ∀ kv ∈ l, walkF n kv.2 = some (walk kv.2) := by
        intro kv hkv
        apply ih
        have h₃ := sizeOf_snd_lt_obj l kv hkv
        have h₄ : sizeOf (Json.obj l) ≤ n + 1 := h
        omega
      simp only [walkF]
      rw [walkObjF_eq n l [] hmem]
      rfl
    | arr xs =>
      have hmem : ∀ x ∈ xs, walkF n x = some (walk x) := by
        intro x hx
        apply ih
        have h₃ := sizeOf_mem_arr xs x hx
        have h₄ : sizeOf (Json.arr xs) ≤ n + 1 := h
        omega
      simp only [walkF]
      rw [walkArrF_eq n xs hmem]
      rfl
    | num m => simp [walkF, walk]
    | str s => simp [walkF, walk]
    | bool b => simp [walkF, walk]
    | null => simp [walkF, walk]

/-- Claim C8: the transform is total over JSON-decoded values: for every
value, whether a mapping with string keys, a sequence, or a scalar, the
recursion terminates and returns a result, never an error: the fuel-bounded
computation succeeds as soon as the fuel exceeds the size of the value, and
its result is the (total) transform itself. -/
theorem walk_total (n : Nat) (v : Json) (h : sizeOf v ≤ n) : walkF n v = some (walk v) :=
  walkF_total n v h

/-- Witness for C8 at a concrete mapping. -/
theorem walk_total_witness :
    sizeOf (Json.obj [("bloqade.x", Json.null)]) ≤ 1000 ∧
    walkF 1000 (Json.obj [("bloqade.x", Json.null)])
      = some (walk (Json.obj [("bloqade.x", Json.null)])) :=
  ⟨by decide, walk_total 1000 _ (by decide)⟩

/-- The read-parse-transform phase of the per-file loop at lines 29-32 of
src/migrate.py, for one file, given its content.  Parsing (json.load) and
serialization (json.dump) are Python standard library functions, so they
are taken as parameters: `parse` may fail with an error, `dump` is total.
An error of `parse` propagates through the Except monad, exactly as the
uncaught Python exception propagates out of the loop body. -/
def processFile (parse : String → Except String Json) (dump : Json → String)
    (content : String) : Except String String :=
  match parse content with
  | .error e => .error e
  | .ok data => .ok (dump (walk data))

/-- One full iteration of the file loop (lines 29-35): the file is reopened
for writing, truncated and rewritten only after reading, parsing and
transforming succeeded; a parse exception propagates first.  The result
pairs the outcome with the content of the file on disk afterwards. -/
def runOnFile (parse : String → Except String Json) (dump : Json → String)
    (content : String) : Except String String × String :=
  match processFile parse dump content with
  | .ok out => (.ok out, out)
  | .error e => (.error e, content)

/-- Claim C9: if parsing a file content as JSON fails, the parse error is
propagated without any recovery attempt and the file content is left
unchanged, since the write occurs only after parsing and transforming
succeed. -/
theorem parse_error_leaves_file_unchanged (parse : String → Except String Json)
    (dump : Json → String) (content : String) (e : String)
    (h : parse content = .error e) :
    runOnFile parse dump content = (.error e, content) := by
  unfold runOnFile processFile
  rw [h]

/-- Witness for C9 with an always-failing parser. -/
theorem parse_error_leaves_file_unchanged_witness :
    (fun _ : String => (Except.error "bad" : Except String Json)) "x" = Except.error "bad" ∧
    runOnFile (fun _ => Except.error "bad") (fun _ => "") "x" = (Except.error "bad", "x") :=
  ⟨rfl, parse_error_leaves_file_unchanged _ _ "x" "bad" rfl⟩

/-- Claim C10: when a mapping contains two distinct keys that are both
rewritten to the same output key (and no later entry is rewritten to that
key), the output mapping holds a single entry under that key, whose value
is the transformed value of the colliding key that occurs later in
iteration order (the later dict assignment overwrites the earlier value),
and the output mapping has strictly fewer entries than the input. -/
theorem collision_last_wins (l₁ l₂ l₃ : List (String × Json))
    (k₁ k₂ : String) (v₁ v₂ : Json)
    (hne : k₁ ≠ k₂) (hcol : newKey k₁ = newKey k₂)
    (hlast : ∀ kv ∈ l₃, newKey kv.1 ≠ newKey k₂) :
    lookupKey (newKey k₂)
        (objPairs (walk (.obj (l₁ ++ ((k₁, v₁) :: (l₂ ++ ((k₂, v₂) :: l₃)))))))
      = some (walk v₂)
    ∧ (objPairs (walk (.obj (l₁ ++ ((k₁, v₁) :: (l₂ ++ ((k₂, v₂) :: l₃))))))).length
        < (l₁ ++ ((k₁, v₁) :: (l₂ ++ ((k₂, v₂) :: l₃)))).length := by
  have hsplit : walkObj (l₁ ++ ((k₁, v₁) :: (l₂ ++ ((k₂, v₂) :: l₃)))) []
      = walkObj l₃ (pyInsert (newKey k₂) (walk v₂)
          (walkObj l₂ (pyInsert (newKey k₁) (walk v₁) (walkObj l₁ [])))) := by
    rw [walkObj_append]
    simp only [walkObj]
    rw [walkObj_append]
    simp only [walkObj]
  constructor
  · rw [walk_obj]
    show lookupKey (newKey k₂) (walkObj (l₁ ++ ((k₁, v₁) :: (l₂ ++ ((k₂, v₂) :: l₃)))) [])
      = some (walk v₂)
    rw [hsplit, lookupKey_walkObj_absent (newKey k₂) l₃ _ hlast, lookupKey_pyInsert_self]
  · rw [walk_obj]
    show (walkObj (l₁ ++ ((k₁, v₁) :: (l₂ ++ ((k₂, v₂) :: l₃)))) []).length < _
    rw [hsplit]
    have hA₀ := length_walkObj_le l₁ []
    have hA₁ := length_pyInsert_le (newKey k₁) (walk v₁) (walkObj l₁ [])
    have hA₂ := length_walkObj_le l₂ (pyInsert (newKey k₁) (walk v₁) (walkObj l₁ []))
    have hkey : newKey k₂
        ∈ keysOf (walkObj l₂ (pyInsert (newKey k₁) (walk v₁) (walkObj l₁ []))) := by
      rw [← hcol]
      exact mem_keysOf_walkObj (newKey k₁) l₂ _ (mem_keysOf_pyInsert_self _ _ _)
    have hA₃ := length_pyInsert_mem (newKey k₂) (walk v₂)
      (walkObj l₂ (pyInsert (newKey k₁) (walk v₁) (walkObj l₁ []))) hkey
    have hfin := length_walkObj_le l₃ (pyInsert (newKey k₂) (walk v₂)
      (walkObj l₂ (pyInsert (newKey k₁) (walk v₁) (walkObj l₁ []))))
    simp only [List.length_append, List.length_cons, List.length_nil] at *
    omega

/-- Witness for C10 at the two-entry colliding mapping. -/
theorem collision_last_wins_witness :
    ("bloqade.foo" : String) ≠ "bloqade.analog.foo" ∧
    newKey "bloqade.foo" = newKey "bloqade.analog.foo" ∧
    lookupKey (newKey "bloqade.analog.foo")
        (objPairs (walk (.obj [("bloqade.foo", Json.null), ("bloqade.analog.foo", Json.num 2)])))
      = some (walk (Json.num 2)) ∧
    (objPairs (walk (.obj [("bloqade.foo", Json.null),
        ("bloqade.analog.foo", Json.num 2)]))).length
      < ([("bloqade.foo", Json.null), ("bloqade.analog.foo", Json.num 2)]
          : List (String × Json)).length :=
  ⟨by decide, by decide,
    (collision_last_wins [] [] [] "bloqade.foo" "bloqade.analog.foo" Json.null (Json.num 2)
      (by decide) (by decide) (fun kv hkv => absurd hkv (List.not_mem_nil _))).1,
    (collision_last_wins [] [] [] "bloqade.foo" "bloqade.analog.foo" Json.null (Json.num 2)
      (by decide) (by decide) (fun kv hkv => absurd hkv (List.not_mem_nil _))).2⟩
